import Mathlib

/-!
Shallow embedding of `fakefuse.py`: a synthetic read-only FUSE filesystem
whose tree is built from a list of path strings.

Python dicts are modelled as association lists preserving insertion order
(`Dict`, a nested inductive).  All functions are translated directly from
the source:

* `expand_paths_to_dict` (lines 16-29): builds the nested dict from paths.
* `getattr` (lines 34-57): resolves a path and returns the attribute record.
* `readdir` (lines 59-71): resolves a path and lists `['.', '..']` ++ keys.
* the nine mutating stubs (lines 73-116): unconditionally raise `ENOSYS`.

`time()` is modelled by passing the current wall-clock value as an explicit
`now` argument; mutation of the filesystem object is modelled by explicit
state passing (each stub returns the resulting `files` dict alongside the
result, which is always the unchanged input).
-/

namespace FakeFuse

/-- Errno values actually raised by the source: `ENOENT` (getattr/readdir
    lookup failure) and `ENOSYS` (all mutating operations). -/
inductive Errno where
  | ENOENT
  | ENOSYS
  deriving DecidableEq, Repr

instance {ε α : Type} [DecidableEq ε] [DecidableEq α] :
    DecidableEq (Except ε α) := fun a b =>
  match a, b with
  | .error e, .error f =>
    if h : e = f then .isTrue (by rw [h]) else .isFalse (by simp [h])
  | .error _, .ok _ => .isFalse (by simp)
  | .ok _, .error _ => .isFalse (by simp)
  | .ok x, .ok y =>
    if h : x = y then .isTrue (by rw [h]) else .isFalse (by simp [h])

/-- Python's `s.split(c)` for a one-character separator, on char lists:
    always returns at least one group, with empty groups for leading,
    trailing and doubled separators. -/
def splitChar (c : Char) : List Char → List (List Char)
  | [] => [[]]
  | a :: rest =>
    match splitChar c rest with
    | [] => [[]]
    | g :: gs => if a = c then [] :: g :: gs else (a :: g) :: gs

/-- Python's `path.split('/')` on strings. -/
def pySplit (s : String) (c : Char) : List String :=
  (splitChar c s.toList).map (fun l => String.mk l)

/-- A Python dict-of-dicts: a node of the hierarchy, holding an
    insertion-ordered association list from child name to child node. -/
inductive Dict where
  | mk : List (String × Dict) → Dict

/-- The entry list of a node. -/
def Dict.entries : Dict → List (String × Dict)
  | .mk es => es

/-- The key list of a node (`list(current.keys())` in the source). -/
def Dict.keys (d : Dict) : List String := d.entries.map Prod.fst

/-- Python's `part in current` / `current[part]`: find the value stored at
    a key (first occurrence). -/
def lookupEntry : List (String × Dict) → String → Option Dict
  | [], _ => none
  | (k, v) :: es, key => if k = key then some v else lookupEntry es key

/-- `Dict` lookup, `current[part]`. -/
def Dict.find (d : Dict) (key : String) : Option Dict := lookupEntry d.entries key

/-- Python's `current[part] = new` when `part` is already a key: replace the
    value at the first occurrence of the key, keeping insertion order. -/
def replaceEntry : List (String × Dict) → String → Dict → List (String × Dict)
  | [], _, _ => []
  | (k, v) :: es, key, nv =>
    if k = key then (k, nv) :: es else (k, v) :: replaceEntry es key nv

/-- The inner loop of `expand_paths_to_dict` for a single path's segment
    list (`for part in parts: ...`), lines 23-28 of the source: skip `.`
    segments, create a child when absent, descend.  The Python loop mutates
    nested dicts in place; here the updated subtree is written back. -/
def insertParts : Dict → List String → Dict
  | d, [] => d
  | d, p :: ps =>
    if p = "." then insertParts d ps
    else
      match lookupEntry d.entries p with
      | some c => Dict.mk (replaceEntry d.entries p (insertParts c ps))
      | none => Dict.mk (d.entries ++ [(p, insertParts (Dict.mk []) ps)])

/-- `expand_paths_to_dict` (lines 16-29): fold every path's
    `path.split('/')` segment list into the dict, starting from `{}`. -/
def expand_paths_to_dict (paths : List String) : Dict :=
  paths.foldl (fun d path => insertParts d (pySplit path '/')) (Dict.mk [])

/-- The query-side normalization shared by `getattr` and `readdir`
    (lines 38-39 and 62-63): `parts = path.split('/')`;
    `parts = [part for part in parts if part]` — drop empty segments. -/
def querySegments (path : String) : List String :=
  (pySplit path '/').filter (fun part => part ≠ "")

/-- The traversal loop of `getattr`/`readdir` (lines 42-45 and 66-69):
    descend one segment at a time; `none` models `FuseOSError(ENOENT)`. -/
def walk : Dict → List String → Option Dict
  | d, [] => some d
  | d, p :: ps =>
    match lookupEntry d.entries p with
    | some c => walk c ps
    | none => none

/-- `S_IFDIR` from the `stat` module. -/
def S_IFDIR : Nat := 0o40000

/-- The attribute record returned by `getattr` (lines 50-57). -/
structure Attr where
  st_mode : Nat
  st_nlink : Nat
  st_size : Nat
  st_ctime : Nat
  st_mtime : Nat
  st_atime : Nat
  deriving DecidableEq, Repr

/-- `getattr` (lines 34-57): normalize the path, walk the tree (raising
    `ENOENT` on a missing segment), then build the fixed attribute record;
    `now` stands for the `time()` call. -/
def getattr (files : Dict) (path : String) (now : Nat) : Except Errno Attr :=
  match walk files (querySegments path) with
  | none => .error .ENOENT
  | some current =>
    .ok { st_mode := S_IFDIR ||| 0o755
          st_nlink := if current.entries.length > 0 then 2 else 1
          st_size := 0
          st_ctime := now
          st_mtime := now
          st_atime := now }

/-- `readdir` (lines 59-71): normalize the path, walk the tree (raising
    `ENOENT` on a missing segment), return `['.', '..'] + keys`. -/
def readdir (files : Dict) (path : String) : Except Errno (List String) :=
  match walk files (querySegments path) with
  | none => .error .ENOENT
  | some current => .ok ("." :: ".." :: current.keys)

/-- `mkdir` (lines 73-78): unconditionally `ENOSYS`; `files` untouched. -/
def mkdir (files : Dict) (_path : String) (_mode : Nat) :
    Except Errno Unit × Dict :=
  (.error .ENOSYS, files)

/-- `rmdir` (lines 80-84): unconditionally `ENOSYS`; `files` untouched. -/
def rmdir (files : Dict) (_path : String) : Except Errno Unit × Dict :=
  (.error .ENOSYS, files)

/-- `create` (lines 86-89): unconditionally `ENOSYS`; `files` untouched. -/
def create (files : Dict) (_path : String) (_mode : Nat) :
    Except Errno Nat × Dict :=
  (.error .ENOSYS, files)

/-- `open` (lines 91-94): unconditionally `ENOSYS`; `files` untouched.
    (`open` is a Lean keyword, hence the name `openFile`.) -/
def openFile (files : Dict) (_path : String) (_flags : Nat) :
    Except Errno Nat × Dict :=
  (.error .ENOSYS, files)

/-- `read` (lines 96-99): unconditionally `ENOSYS`; `files` untouched. -/
def readFile (files : Dict) (_path : String) (_length _offset _fh : Nat) :
    Except Errno (List Nat) × Dict :=
  (.error .ENOSYS, files)

/-- `write` (lines 101-104): unconditionally `ENOSYS`; `files` untouched. -/
def writeFile (files : Dict) (_path : String) (_data : List Nat)
    (_offset _fh : Nat) : Except Errno Nat × Dict :=
  (.error .ENOSYS, files)

/-- `truncate` (lines 106-108): unconditionally `ENOSYS`; `files` untouched. -/
def truncate (files : Dict) (_path : String) (_length : Nat) :
    Except Errno Unit × Dict :=
  (.error .ENOSYS, files)

/-- `unlink` (lines 110-112): unconditionally `ENOSYS`; `files` untouched. -/
def unlink (files : Dict) (_path : String) : Except Errno Unit × Dict :=
  (.error .ENOSYS, files)

/-- `rename` (lines 114-116): unconditionally `ENOSYS`; `files` untouched. -/
def rename (files : Dict) (_old _new : String) : Except Errno Unit × Dict :=
  (.error .ENOSYS, files)

/-- Segments of a build path after removing the `.` placeholder segments
    that `insertParts` skips: the chain of node names the path creates. -/
def stripDots (parts : List String) : List String :=
  parts.filter (fun part => part ≠ ".")

/-- The fully normalized segments of a build path: `.` and empty segments
    removed.  This is the spec's notion of a path's segment list. -/
def specSegments (path : String) : List String :=
  (stripDots (pySplit path '/')).filter (fun part => part ≠ "")

/-- `IsStart c l`: the segment list `c` is an initial run of `l`
    (`l` extends `c`). -/
def IsStart (c l : List String) : Prop := ∃ t, c ++ t = l

/-- `IsStart` is decidable by structural recursion. -/
def IsStart.dec : (c l : List String) → Decidable (IsStart c l)
  | [], l => .isTrue ⟨l, rfl⟩
  | _ :: _, [] => .isFalse (fun ⟨_, h⟩ => by simp at h)
  | a :: c, b :: l =>
    if hab : a = b then
      match IsStart.dec c l with
      | .isTrue h =>
        .isTrue (by obtain ⟨t, ht⟩ := h; exact ⟨t, by rw [List.cons_append, hab, ht]⟩)
      | .isFalse h =>
        .isFalse (fun ⟨t, ht⟩ => h ⟨t, by injection ht⟩)
    else .isFalse (fun ⟨t, ht⟩ => hab (by injection ht))

instance (c l : List String) : Decidable (IsStart c l) := IsStart.dec c l

/-- `containsB d ps`: inserting the segment list `ps` into `d` would only
    revisit existing nodes — every non-`.` segment chain of `ps` is
    already present.  (Mirrors the walk of `insertParts`.) -/
def containsB : Dict → List String → Bool
  | _, [] => true
  | d, p :: ps =>
    if p = "." then containsB d ps
    else
      match lookupEntry d.entries p with
      | some c => containsB c ps
      | none => false

/-- Every node reachable from `d` has duplicate-free child keys (the
    defining invariant of a Python dict). -/
def AllNodup (d : Dict) : Prop :=
  ∀ c n, walk d c = some n → n.keys.Nodup

theorem isStart_nil (l : List String) : IsStart [] l := ⟨l, rfl⟩

theorem isStart_nil_right {c : List String} (h : IsStart c []) : c = [] := by
  obtain ⟨t, ht⟩ := h
  exact (List.append_eq_nil.mp ht).1

theorem isStart_cons_iff {a b : String} {c l : List String} :
    IsStart (a :: c) (b :: l) ↔ a = b ∧ IsStart c l := by
  constructor
  · rintro ⟨t, ht⟩
    injection ht with h1 h2
    exact ⟨h1, t, h2⟩
  · rintro ⟨rfl, t, ht⟩
    exact ⟨t, by rw [List.cons_append, ht]⟩

theorem isStart_trans {a b c : List String} (h1 : IsStart a b) (h2 : IsStart b c) :
    IsStart a c := by
  obtain ⟨t1, rfl⟩ := h1
  obtain ⟨t2, rfl⟩ := h2
  exact ⟨t1 ++ t2, by rw [List.append_assoc]⟩

/-- An initial run none of whose segments are empty is also an initial run
    of the empty-filtered list. -/
theorem isStart_filter_of_no_empty {c l : List String}
    (h : IsStart c l) (hc : ∀ x ∈ c, x ≠ "") :
    IsStart c (l.filter (fun part => part ≠ "")) := by
  obtain ⟨t, rfl⟩ := h
  have hc2 : c.filter (fun part => part ≠ "") = c :=
    List.filter_eq_self.mpr (by simpa using hc)
  exact ⟨t.filter (fun part => part ≠ ""), by rw [List.filter_append, hc2]⟩

/-- Query segments never contain the empty string. -/
theorem querySegments_no_empty (path : String) :
    ∀ x ∈ querySegments path, x ≠ "" := by
  intro x hx
  simpa using (List.mem_filter.mp hx).2

/-! ### Association-list lemmas -/

theorem Dict.entries_mk (es : List (String × Dict)) : (Dict.mk es).entries = es := rfl

theorem lookupEntry_replaceEntry_ne (es : List (String × Dict)) {k key : String}
    (nv : Dict) (h : k ≠ key) :
    lookupEntry (replaceEntry es key nv) k = lookupEntry es k := by
  induction es with
  | nil => rfl
  | cons e es ih =>
    obtain ⟨k0, v0⟩ := e
    by_cases h0 : k0 = key
    · simp [replaceEntry, lookupEntry, h0, Ne.symm h]
    · simp only [replaceEntry, lookupEntry, if_neg h0]
      by_cases h1 : k0 = k
      · simp [lookupEntry, h1]
      · simp [lookupEntry, h1, ih]

theorem lookupEntry_replaceEntry_self {es : List (String × Dict)} {key : String}
    (nv : Dict) (h : (lookupEntry es key).isSome) :
    lookupEntry (replaceEntry es key nv) key = some nv := by
  induction es with
  | nil => simp [lookupEntry] at h
  | cons e es ih =>
    obtain ⟨k0, v0⟩ := e
    by_cases h0 : k0 = key
    · simp [replaceEntry, lookupEntry, h0]
    · simp only [lookupEntry, if_neg h0] at h
      simp [replaceEntry, lookupEntry, if_neg h0, ih h]

theorem replaceEntry_self {es : List (String × Dict)} {key : String} {c : Dict}
    (h : lookupEntry es key = some c) : replaceEntry es key c = es := by
  induction es with
  | nil => rfl
  | cons e es ih =>
    obtain ⟨k0, v0⟩ := e
    by_cases h0 : k0 = key
    · simp only [lookupEntry, if_pos h0] at h
      injection h with h1
      subst h1
      simp [replaceEntry, h0]
    · simp only [lookupEntry, if_neg h0] at h
      simp [replaceEntry, h0, ih h]

theorem replaceEntry_keys (es : List (String × Dict)) (key : String) (nv : Dict) :
    (replaceEntry es key nv).map Prod.fst = es.map Prod.fst := by
  induction es with
  | nil => rfl
  | cons e es ih =>
    obtain ⟨k0, v0⟩ := e
    by_cases h0 : k0 = key
    · simp [replaceEntry, h0]
    · simp [replaceEntry, h0, ih]

theorem lookupEntry_append_ne (es : List (String × Dict)) {k p : String}
    (v : Dict) (h : k ≠ p) :
    lookupEntry (es ++ [(p, v)]) k = lookupEntry es k := by
  induction es with
  | nil => simp [lookupEntry, Ne.symm h]
  | cons e es ih =>
    obtain ⟨k0, v0⟩ := e
    by_cases h0 : k0 = k
    · simp [lookupEntry, h0]
    · simp [lookupEntry, h0, ih]

theorem lookupEntry_append_self {es : List (String × Dict)} {p : String}
    (v : Dict) (h : lookupEntry es p = none) :
    lookupEntry (es ++ [(p, v)]) p = some v := by
  induction es with
  | nil => simp [lookupEntry]
  | cons e es ih =>
    obtain ⟨k0, v0⟩ := e
    by_cases h0 : k0 = p
    · simp [lookupEntry, h0] at h
    · simp only [lookupEntry, if_neg h0] at h
      simp [lookupEntry, h0, ih h]

theorem lookupEntry_eq_none_iff (es : List (String × Dict)) (k : String) :
    lookupEntry es k = none ↔ k ∉ es.map Prod.fst := by
  induction es with
  | nil => simp [lookupEntry]
  | cons e es ih =>
    obtain ⟨k0, v0⟩ := e
    by_cases h0 : k0 = k
    · simp [lookupEntry, h0]
    · simp [lookupEntry, h0, ih, Ne.symm h0]

/-! ### Walk lemmas -/

theorem walk_empty_isSome (c : List String) :
    (walk (Dict.mk []) c).isSome ↔ c = [] := by
  cases c with
  | nil => simp [walk]
  | cons p ps => simp [walk, Dict.entries, lookupEntry]

theorem walk_append (d : Dict) (c1 c2 : List String) :
    walk d (c1 ++ c2) = (walk d c1).bind (fun n => walk n c2) := by
  induction c1 generalizing d with
  | nil => simp [walk]
  | cons p ps ih =>
    simp only [List.cons_append, walk]
    cases lookupEntry d.entries p with
    | none => rfl
    | some ch => exact ih ch

/-- Central characterization: a chain resolves in `insertParts d ps` iff it
    resolved in `d` already or it is an initial run of the `.`-stripped
    segment list `ps`. -/
theorem walk_insertParts (ps : List String) (d : Dict) (c : List String) :
    (walk (insertParts d ps) c).isSome ↔
      (walk d c).isSome ∨ IsStart c (stripDots ps) := by
  induction ps generalizing d c with
  | nil =>
    simp only [insertParts, stripDots, List.filter_nil]
    constructor
    · exact fun h => Or.inl h
    · rintro (h | h)
      · exact h
      · rw [isStart_nil_right h]; simp [walk]
  | cons p ps ih =>
    by_cases hp : p = "."
    · simpa [insertParts, hp, stripDots] using ih d c
    · have hstrip : stripDots (p :: ps) = p :: stripDots ps := by
        simp [stripDots, hp]
      rw [hstrip]
      cases hlook : lookupEntry d.entries p with
      | some ch =>
        have hi : insertParts d (p :: ps)
            = Dict.mk (replaceEntry d.entries p (insertParts ch ps)) := by
          simp [insertParts, hp, hlook]
        rw [hi]
        cases c with
        | nil => simp [walk, isStart_nil]
        | cons k c' =>
          by_cases hk : k = p
          · subst hk
            have hrep : lookupEntry (replaceEntry d.entries k (insertParts ch ps)) k
                = some (insertParts ch ps) :=
              lookupEntry_replaceEntry_self _ (by simp [hlook])
            simp only [walk, Dict.entries_mk, hrep, hlook, isStart_cons_iff]
            rw [ih ch c']
            tauto
          · have hrep := lookupEntry_replaceEntry_ne d.entries
              (insertParts ch ps) hk
            simp only [walk, Dict.entries_mk, hrep, isStart_cons_iff]
            tauto
      | none =>
        have hi : insertParts d (p :: ps)
            = Dict.mk (d.entries ++ [(p, insertParts (Dict.mk []) ps)]) := by
          simp [insertParts, hp, hlook]
        rw [hi]
        cases c with
        | nil => simp [walk, isStart_nil]
        | cons k c' =>
          by_cases hk : k = p
          · subst hk
            have happ := lookupEntry_append_self
              (insertParts (Dict.mk []) ps) hlook
            simp only [walk, Dict.entries_mk, happ, hlook, isStart_cons_iff]
            rw [ih (Dict.mk []) c', walk_empty_isSome]
            constructor
            · rintro (rfl | h)
              · exact Or.inr ⟨trivial, isStart_nil _⟩
              · exact Or.inr ⟨trivial, h⟩
            · rintro (h | ⟨_, h⟩)
              · simp at h
              · exact Or.inr h
          · have happ := lookupEntry_append_ne d.entries
              (insertParts (Dict.mk []) ps) hk
            simp only [walk, Dict.entries_mk, happ, isStart_cons_iff]
            tauto

/-- Folding a list of paths into a dict: a chain resolves iff it resolved
    before or is an initial run of some path's `.`-stripped segments. -/
theorem walk_foldl_insert (paths : List String) (d : Dict) (c : List String) :
    (walk (paths.foldl (fun d path => insertParts d (pySplit path '/')) d) c).isSome ↔
      (walk d c).isSome ∨ ∃ p ∈ paths, IsStart c (stripDots (pySplit p '/')) := by
  induction paths generalizing d with
  | nil => simp
  | cons q qs ih =>
    simp only [List.foldl_cons, List.mem_cons]
    rw [ih, walk_insertParts]
    constructor
    · rintro ((h | h) | ⟨p, hp, h⟩)
      · exact Or.inl h
      · exact Or.inr ⟨q, Or.inl rfl, h⟩
      · exact Or.inr ⟨p, Or.inr hp, h⟩
    · rintro (h | ⟨p, rfl | hp, h⟩)
      · exact Or.inl (Or.inl h)
      · exact Or.inl (Or.inr h)
      · exact Or.inr ⟨p, hp, h⟩

/-- Chains of the built tree are exactly the initial runs of the inputs'
    `.`-stripped segment lists (plus the root). -/
theorem walk_build (paths : List String) (c : List String) :
    (walk (expand_paths_to_dict paths) c).isSome ↔
      c = [] ∨ ∃ p ∈ paths, IsStart c (stripDots (pySplit p '/')) := by
  rw [expand_paths_to_dict, walk_foldl_insert, walk_empty_isSome]

/-! ### Unfolding lemmas for the query operations -/

theorem getattr_of_walk_some {files : Dict} {path : String} {n : Dict}
    (now : Nat) (h : walk files (querySegments path) = some n) :
    getattr files path now =
      .ok { st_mode := S_IFDIR ||| 0o755
            st_nlink := if n.entries.length > 0 then 2 else 1
            st_size := 0
            st_ctime := now
            st_mtime := now
            st_atime := now } := by
  rw [getattr, h]

theorem getattr_of_walk_none {files : Dict} {path : String}
    (now : Nat) (h : walk files (querySegments path) = none) :
    getattr files path now = .error .ENOENT := by
  rw [getattr, h]

theorem readdir_of_walk_some {files : Dict} {path : String} {n : Dict}
    (h : walk files (querySegments path) = some n) :
    readdir files path = .ok ("." :: ".." :: n.keys) := by
  rw [readdir, h]

theorem readdir_of_walk_none {files : Dict} {path : String}
    (h : walk files (querySegments path) = none) :
    readdir files path = .error .ENOENT := by
  rw [readdir, h]

theorem getattr_isOk_iff (files : Dict) (path : String) (now : Nat) :
    (∃ a, getattr files path now = .ok a) ↔
      (walk files (querySegments path)).isSome := by
  cases h : walk files (querySegments path) with
  | none => simp [getattr_of_walk_none now h]
  | some n => simp [getattr_of_walk_some now h]

theorem getattr_err_iff (files : Dict) (path : String) (now : Nat) :
    getattr files path now = .error .ENOENT ↔
      walk files (querySegments path) = none := by
  cases h : walk files (querySegments path) with
  | none => simp [getattr_of_walk_none now h]
  | some n => simp [getattr_of_walk_some now h]

/-! ### Idempotence of insertion -/

theorem Dict.mk_entries (d : Dict) : Dict.mk d.entries = d := by
  cases d
  rfl

theorem containsB_insertParts_self (ps : List String) (d : Dict) :
    containsB (insertParts d ps) ps = true := by
  induction ps generalizing d with
  | nil => rfl
  | cons p ps ih =>
    by_cases hp : p = "."
    · have he : insertParts d (p :: ps) = insertParts d ps := by
        simp [insertParts, hp]
      have hc : containsB (insertParts d ps) (p :: ps)
          = containsB (insertParts d ps) ps := by
        simp [containsB, hp]
      rw [he, hc]
      exact ih d
    · cases hlook : lookupEntry d.entries p with
      | some ch =>
        have hi : insertParts d (p :: ps)
            = Dict.mk (replaceEntry d.entries p (insertParts ch ps)) := by
          simp [insertParts, hp, hlook]
        have hrep : lookupEntry (replaceEntry d.entries p (insertParts ch ps)) p
            = some (insertParts ch ps) :=
          lookupEntry_replaceEntry_self _ (by simp [hlook])
        rw [hi]
        simp [containsB, hp, Dict.entries_mk, hrep, ih]
      | none =>
        have hi : insertParts d (p :: ps)
            = Dict.mk (d.entries ++ [(p, insertParts (Dict.mk []) ps)]) := by
          simp [insertParts, hp, hlook]
        have happ := lookupEntry_append_self (insertParts (Dict.mk []) ps) hlook
        rw [hi]
        simp [containsB, hp, Dict.entries_mk, happ, ih]

theorem insertParts_of_containsB {ps : List String} {d : Dict}
    (h : containsB d ps = true) : insertParts d ps = d := by
  induction ps generalizing d with
  | nil => rfl
  | cons p ps ih =>
    by_cases hp : p = "."
    · have hc : containsB d (p :: ps) = containsB d ps := by simp [containsB, hp]
      have he : insertParts d (p :: ps) = insertParts d ps := by
        simp [insertParts, hp]
      rw [hc] at h
      rw [he]
      exact ih h
    · cases hlook : lookupEntry d.entries p with
      | none => simp [containsB, hp, hlook] at h
      | some ch =>
        have hc : containsB d (p :: ps) = containsB ch ps := by
          simp [containsB, hp, hlook]
        rw [hc] at h
        have hi : insertParts d (p :: ps)
            = Dict.mk (replaceEntry d.entries p (insertParts ch ps)) := by
          simp [insertParts, hp, hlook]
        rw [hi, ih h, replaceEntry_self hlook, Dict.mk_entries]

theorem containsB_insertParts (ps : List String) :
    ∀ (d : Dict) (qs : List String),
      containsB d qs = true → containsB (insertParts d ps) qs = true := by
  induction ps with
  | nil =>
    intro d qs h
    simpa [insertParts] using h
  | cons p ps ihp =>
    intro d qs
    by_cases hp : p = "."
    · have he : insertParts d (p :: ps) = insertParts d ps := by
        simp [insertParts, hp]
      rw [he]
      exact ihp d qs
    · cases hlook : lookupEntry d.entries p with
      | some ch =>
        have hi : insertParts d (p :: ps)
            = Dict.mk (replaceEntry d.entries p (insertParts ch ps)) := by
          simp [insertParts, hp, hlook]
        rw [hi]
        induction qs with
        | nil => intro _; rfl
        | cons q qs' ihq =>
          intro h
          by_cases hq : q = "."
          · have h1 : containsB d (q :: qs') = containsB d qs' := by
              simp [containsB, hq]
            have h2 : ∀ x : Dict, containsB x (q :: qs') = containsB x qs' := by
              intro x; simp [containsB, hq]
            rw [h2]
            exact ihq (h1 ▸ h)
          · by_cases hqp : q = p
            · subst hqp
              have hc : containsB d (q :: qs') = containsB ch qs' := by
                simp [containsB, hq, hlook]
              have hrep : lookupEntry (replaceEntry d.entries q (insertParts ch ps)) q
                  = some (insertParts ch ps) :=
                lookupEntry_replaceEntry_self _ (by simp [hlook])
              have hc2 : containsB (Dict.mk (replaceEntry d.entries q (insertParts ch ps)))
                  (q :: qs') = containsB (insertParts ch ps) qs' := by
                simp [containsB, hq, Dict.entries_mk, hrep]
              rw [hc2]
              exact ihp ch qs' (hc ▸ h)
            · have hrep := lookupEntry_replaceEntry_ne d.entries (insertParts ch ps) hqp
              have hc2 : containsB (Dict.mk (replaceEntry d.entries p (insertParts ch ps)))
                  (q :: qs') = containsB d (q :: qs') := by
                simp only [containsB, if_neg hq, Dict.entries_mk, hrep]
              rw [hc2]
              exact h
      | none =>
        have hi : insertParts d (p :: ps)
            = Dict.mk (d.entries ++ [(p, insertParts (Dict.mk []) ps)]) := by
          simp [insertParts, hp, hlook]
        rw [hi]
        induction qs with
        | nil => intro _; rfl
        | cons q qs' ihq =>
          intro h
          by_cases hq : q = "."
          · have h1 : containsB d (q :: qs') = containsB d qs' := by
              simp [containsB, hq]
            have h2 : ∀ x : Dict, containsB x (q :: qs') = containsB x qs' := by
              intro x; simp [containsB, hq]
            rw [h2]
            exact ihq (h1 ▸ h)
          · by_cases hqp : q = p
            · subst hqp
              simp [containsB, hq, hlook] at h
            · have happ := lookupEntry_append_ne d.entries
                (insertParts (Dict.mk []) ps) hqp
              have hc2 : containsB (Dict.mk (d.entries ++ [(p, insertParts (Dict.mk []) ps)]))
                  (q :: qs') = containsB d (q :: qs') := by
                simp only [containsB, if_neg hq, Dict.entries_mk, happ]
              rw [hc2]
              exact h

theorem containsB_foldl (P : List String) (d : Dict) (qs : List String)
    (h : containsB d qs = true) :
    containsB (P.foldl (fun d path => insertParts d (pySplit path '/')) d) qs = true := by
  induction P generalizing d with
  | nil => simpa
  | cons q P ih =>
    simp only [List.foldl_cons]
    exact ih _ (containsB_insertParts _ d qs h)

theorem build_containsB (P : List String) :
    ∀ p ∈ P, containsB (expand_paths_to_dict P) (pySplit p '/') = true := by
  suffices h : ∀ (d : Dict), ∀ p ∈ P,
      containsB (P.foldl (fun d path => insertParts d (pySplit path '/')) d)
        (pySplit p '/') = true by
    intro p hp
    exact h (Dict.mk []) p hp
  induction P with
  | nil => intro _ p hp; simp at hp
  | cons q P ih =>
    intro d p hp
    rcases List.mem_cons.mp hp with rfl | hp
    · simp only [List.foldl_cons]
      exact containsB_foldl P _ _ (containsB_insertParts_self _ d)
    · simp only [List.foldl_cons]
      exact ih _ p hp

theorem foldl_insert_id {P : List String} {d : Dict}
    (h : ∀ p ∈ P, containsB d (pySplit p '/') = true) :
    P.foldl (fun d path => insertParts d (pySplit path '/')) d = d := by
  induction P with
  | nil => rfl
  | cons q P ih =>
    simp only [List.foldl_cons]
    rw [insertParts_of_containsB (h q (List.mem_cons_self q P))]
    exact ih (fun p hp => h p (List.mem_cons_of_mem q hp))

/-! ### Unique keys at every reachable node -/

theorem allNodup_empty : AllNodup (Dict.mk []) := by
  intro c n h
  cases c with
  | nil =>
    injection h with h
    subst h
    simp [Dict.keys, Dict.entries_mk]
  | cons p ps => simp [walk, Dict.entries_mk, lookupEntry] at h

theorem allNodup_child {d ch : Dict} {p : String}
    (hd : AllNodup d) (h : lookupEntry d.entries p = some ch) : AllNodup ch := by
  intro c n hw
  apply hd (p :: c) n
  simp [walk, h, hw]

theorem allNodup_insertParts (ps : List String) {d : Dict} (hd : AllNodup d) :
    AllNodup (insertParts d ps) := by
  induction ps generalizing d with
  | nil => simpa [insertParts]
  | cons p ps ih =>
    by_cases hp : p = "."
    · have he : insertParts d (p :: ps) = insertParts d ps := by
        simp [insertParts, hp]
      rw [he]
      exact ih hd
    · cases hlook : lookupEntry d.entries p with
      | some ch =>
        have hi : insertParts d (p :: ps)
            = Dict.mk (replaceEntry d.entries p (insertParts ch ps)) := by
          simp [insertParts, hp, hlook]
        rw [hi]
        intro c n hw
        cases c with
        | nil =>
          injection hw with hw
          subst hw
          have : (Dict.mk (replaceEntry d.entries p (insertParts ch ps))).keys
              = d.keys := by
            simp [Dict.keys, Dict.entries_mk, replaceEntry_keys]
          rw [this]
          exact hd [] d rfl
        | cons k c' =>
          by_cases hk : k = p
          · subst hk
            have hrep : lookupEntry (replaceEntry d.entries k (insertParts ch ps)) k
                = some (insertParts ch ps) :=
              lookupEntry_replaceEntry_self _ (by simp [hlook])
            rw [show walk (Dict.mk (replaceEntry d.entries k (insertParts ch ps)))
                (k :: c') = walk (insertParts ch ps) c' by
              simp [walk, Dict.entries_mk, hrep]] at hw
            exact ih (allNodup_child hd hlook) c' n hw
          · have hrep := lookupEntry_replaceEntry_ne d.entries (insertParts ch ps) hk
            cases hlk : lookupEntry d.entries k with
            | none =>
              rw [show walk (Dict.mk (replaceEntry d.entries p (insertParts ch ps)))
                  (k :: c') = none by simp [walk, Dict.entries_mk, hrep, hlk]] at hw
              exact absurd hw (by simp)
            | some cq =>
              rw [show walk (Dict.mk (replaceEntry d.entries p (insertParts ch ps)))
                  (k :: c') = walk cq c' by
                simp [walk, Dict.entries_mk, hrep, hlk]] at hw
              exact allNodup_child hd hlk c' n hw
      | none =>
        have hi : insertParts d (p :: ps)
            = Dict.mk (d.entries ++ [(p, insertParts (Dict.mk []) ps)]) := by
          simp [insertParts, hp, hlook]
        rw [hi]
        intro c n hw
        cases c with
        | nil =>
          injection hw with hw
          subst hw
          have hkeys : (Dict.mk (d.entries ++ [(p, insertParts (Dict.mk []) ps)])).keys
              = d.keys ++ [p] := by
            simp [Dict.keys, Dict.entries_mk]
          rw [hkeys]
          have hnotin : p ∉ d.keys := by
            have := (lookupEntry_eq_none_iff d.entries p).mp hlook
            simpa [Dict.keys] using this
          exact List.Nodup.append (hd [] d rfl) (List.nodup_singleton p)
            (by simpa using hnotin)
        | cons k c' =>
          by_cases hk : k = p
          · subst hk
            have happ := lookupEntry_append_self (insertParts (Dict.mk []) ps) hlook
            rw [show walk (Dict.mk (d.entries ++ [(k, insertParts (Dict.mk []) ps)]))
                (k :: c') = walk (insertParts (Dict.mk []) ps) c' by
              simp [walk, Dict.entries_mk, happ]] at hw
            exact ih allNodup_empty c' n hw
          · have happ := lookupEntry_append_ne d.entries
              (insertParts (Dict.mk []) ps) hk
            cases hlk : lookupEntry d.entries k with
            | none =>
              rw [show walk (Dict.mk (d.entries ++ [(p, insertParts (Dict.mk []) ps)]))
                  (k :: c') = none by simp [walk, Dict.entries_mk, happ, hlk]] at hw
              exact absurd hw (by simp)
            | some cq =>
              rw [show walk (Dict.mk (d.entries ++ [(p, insertParts (Dict.mk []) ps)]))
                  (k :: c') = walk cq c' by
                simp [walk, Dict.entries_mk, happ, hlk]] at hw
              exact allNodup_child hd hlk c' n hw

theorem allNodup_build (P : List String) : AllNodup (expand_paths_to_dict P) := by
  suffices h : ∀ (d : Dict), AllNodup d →
      AllNodup (P.foldl (fun d path => insertParts d (pySplit path '/')) d) from
    h (Dict.mk []) allNodup_empty
  induction P with
  | nil => intro d hd; simpa
  | cons q P ih =>
    intro d hd
    simp only [List.foldl_cons]
    exact ih _ (allNodup_insertParts _ hd)

/-! ### Claim theorems -/

/-- Claim C2, counterexample: with `P = ['/a']` the (sole) stripped
    prefix chain `['a']` of the entry `/a` does NOT resolve: the leading
    slash creates an empty-named node above `a`, and `getattr('/a')`
    fails with `NotFound`. -/
theorem build_resolves_stems_false :
    (["/a"] : List String) ≠ [] ∧
    IsStart (querySegments "/a") (specSegments "/a") ∧
    getattr (expand_paths_to_dict ["/a"]) "/a" 0 = .error .ENOENT := by
  decide

/-- Claim C2, amended: for every non-empty list `P` of paths in which
    every path's empty segments occur only in trailing position (after
    stripping `.` segments, filtering out empty segments yields an
    initial run of the segment list), `getattr` succeeds on every query
    path whose normalized segments form a prefix of some entry's
    `.`-and-empty-stripped segments. -/
theorem build_resolves_input_stems :
    ∀ (P : List String) (Q : String) (now : Nat),
      P ≠ [] →
      (∀ p ∈ P, IsStart (specSegments p) (stripDots (pySplit p '/'))) →
      (∃ p ∈ P, IsStart (querySegments Q) (specSegments p)) →
      ∃ a, getattr (expand_paths_to_dict P) Q now = .ok a := by
  intro P Q now _ htrail ⟨p, hp, hstem⟩
  rw [getattr_isOk_iff, walk_build]
  exact Or.inr ⟨p, hp, isStart_trans hstem (htrail p hp)⟩

/-- Claim C2, witness: the amended theorem applied to `P = ['a/b/']`
    (trailing slash allowed) and the prefix query `/a`. -/
theorem build_resolves_input_stems_witness :
    ∃ a, getattr (expand_paths_to_dict ["a/b/"]) "/a" 5 = .ok a :=
  build_resolves_input_stems ["a/b/"] "/a" 5 (by decide) (by decide) (by decide)

/-- Claim C6, counterexample: with the empty path list, the query `/` is
    (vacuously) not a prefix of any entry, yet `getattr('/')` succeeds
    (the root always resolves), so the claim fails for `P = []`. -/
theorem unmatched_query_not_found_false :
    (∀ p ∈ ([] : List String), ¬ IsStart (querySegments "/") (specSegments p)) ∧
    getattr (expand_paths_to_dict []) "/" 0 ≠ .error .ENOENT := by
  decide

/-- Claim C6, amended: for every NON-EMPTY list `P` and every query path
    whose normalized segments are not a prefix of any entry's stripped
    segments, `getattr` fails with `NotFound`; moreover `getattr` and
    `readdir` fail with `NotFound` exactly when the segment-by-segment
    traversal of the tree fails. -/
theorem unmatched_query_not_found :
    (∀ (P : List String) (Q : String) (now : Nat),
        P ≠ [] →
        (∀ p ∈ P, ¬ IsStart (querySegments Q) (specSegments p)) →
        getattr (expand_paths_to_dict P) Q now = .error .ENOENT) ∧
    (∀ (files : Dict) (Q : String) (now : Nat),
        getattr files Q now = .error .ENOENT ↔
          walk files (querySegments Q) = none) ∧
    (∀ (files : Dict) (Q : String),
        readdir files Q = .error .ENOENT ↔
          walk files (querySegments Q) = none) := by
  refine ⟨?_, getattr_err_iff, ?_⟩
  · intro P Q now hP hq
    rw [getattr_err_iff]
    by_contra hne
    have hsome : (walk (expand_paths_to_dict P) (querySegments Q)).isSome :=
      Option.ne_none_iff_isSome.mp hne
    rw [walk_build] at hsome
    rcases hsome with hnil | ⟨p, hp, hst⟩
    · obtain ⟨p, hp⟩ := List.exists_mem_of_ne_nil P hP
      exact hq p hp (hnil ▸ isStart_nil _)
    · exact hq p hp (isStart_filter_of_no_empty hst (querySegments_no_empty Q))
  · intro files Q
    cases h : walk files (querySegments Q) with
    | none => simp [readdir_of_walk_none h]
    | some n => simp [readdir_of_walk_some h]

/-- Claim C6, witness: the amended theorem applied to `P = ['a']` and the
    unmatched query `/b`. -/
theorem unmatched_query_not_found_witness :
    getattr (expand_paths_to_dict ["a"]) "/b" 0 = .error .ENOENT :=
  unmatched_query_not_found.1 ["a"] "/b" 0 (by decide) (by decide)

/-- Claim C1, counterexample: the Tree Builder does NOT skip empty
    segments.  `build(['./a', 'a/'])` yields the tree `{'a': {'': {}}}`
    while `build(['a'])` yields `{'a': {}}`; the two trees answer
    `listChildren('/a')` differently, so the claimed equality of trees
    fails. -/
theorem build_drops_empty_segments_false :
    expand_paths_to_dict ["./a", "a/"] = Dict.mk [("a", Dict.mk [("", Dict.mk [])])] ∧
    expand_paths_to_dict ["a"] = Dict.mk [("a", Dict.mk [])] ∧
    readdir (expand_paths_to_dict ["./a", "a/"]) "/a"
      ≠ readdir (expand_paths_to_dict ["a"]) "/a" :=
  ⟨rfl, rfl, by decide⟩

/-- Claim C1, amended: the Tree Builder skips `.` segments, but it does
    not skip empty segments — an empty segment (from a leading, trailing,
    or doubled slash) contributes a node named by the empty string.  In
    particular `build(['./a', 'a/'])` produces `{'a': {'': {}}}`, which
    differs observably (via `listChildren('/a')`) from
    `build(['a']) = {'a': {}}`. -/
theorem build_skips_dot_segments_only :
    (∀ (d : Dict) (ps : List String), insertParts d ("." :: ps) = insertParts d ps) ∧
    expand_paths_to_dict ["./a", "a/"] = Dict.mk [("a", Dict.mk [("", Dict.mk [])])] ∧
    expand_paths_to_dict ["a"] = Dict.mk [("a", Dict.mk [])] ∧
    readdir (expand_paths_to_dict ["./a", "a/"]) "/a"
      ≠ readdir (expand_paths_to_dict ["a"]) "/a" :=
  ⟨fun d ps => by simp [insertParts], rfl, rfl, by decide⟩

/-- Claim C1, witness: the amended theorem's universal part applied to
    the empty dict and the segment list `['.', 'a']`. -/
theorem build_skips_dot_segments_only_witness :
    insertParts (Dict.mk []) [".", "a"] = insertParts (Dict.mk []) ["a"] :=
  build_skips_dot_segments_only.1 (Dict.mk []) ["a"]

/-- Claim C3: on every path that resolves, `getattr` returns mode
    `S_IFDIR | 0o755` (the same directory-shaped constant for all nodes),
    link count 2 when the resolved node has at least one child and 1
    otherwise, size 0, and all three timestamps equal to the wall-clock
    value `now` sampled at the query; for `build(['a', 'a/b'])`,
    `getattr('/a')` reports link count 2. -/
theorem getattr_attributes_spec :
    (∀ (files : Dict) (path : String) (now : Nat) (a : Attr),
        getattr files path now = .ok a →
        a.st_mode = S_IFDIR ||| 0o755 ∧
        (∃ n, walk files (querySegments path) = some n ∧
          a.st_nlink = if n.entries.length > 0 then 2 else 1) ∧
        a.st_size = 0 ∧ a.st_ctime = now ∧ a.st_mtime = now ∧ a.st_atime = now) ∧
    (∀ now : Nat, ∃ a : Attr,
        getattr (expand_paths_to_dict ["a", "a/b"]) "/a" now = .ok a ∧
        a.st_nlink = 2) := by
  constructor
  · intro files path now a h
    cases hw : walk files (querySegments path) with
    | none => rw [getattr_of_walk_none now hw] at h; exact absurd h (by simp)
    | some n =>
      rw [getattr_of_walk_some now hw] at h
      injection h with h
      subst h
      exact ⟨rfl, ⟨n, rfl, rfl⟩, rfl, rfl, rfl, rfl⟩
  · intro now
    exact ⟨⟨S_IFDIR ||| 0o755, 2, 0, now, now, now⟩, rfl, rfl⟩

/-- Claim C3, witness: the general attribute theorem applied to the tree
    `build(['a', 'a/b'])`, path `/a`, wall-clock value 7. -/
theorem getattr_attributes_spec_witness :
    (16877 : Nat) = S_IFDIR ||| 0o755 ∧
    (∃ n, walk (expand_paths_to_dict ["a", "a/b"]) (querySegments "/a") = some n ∧
      (2 : Nat) = if n.entries.length > 0 then 2 else 1) ∧
    (0 : Nat) = 0 ∧ (7 : Nat) = 7 ∧ (7 : Nat) = 7 ∧ (7 : Nat) = 7 :=
  getattr_attributes_spec.1 (expand_paths_to_dict ["a", "a/b"]) "/a" 7
    ⟨16877, 2, 0, 7, 7, 7⟩ rfl

/-- Claim C4: on every resolvable path of a built tree, `readdir` returns
    `['.', '..']` followed by exactly the resolved node's child names
    (which are duplicate-free); on a leaf it returns exactly
    `['.', '..']`; and the root always resolves, for any tree — even one
    with zero top-level entries. -/
theorem readdir_children_spec :
    (∀ (P : List String) (Q : String) (l : List String),
        readdir (expand_paths_to_dict P) Q = .ok l →
        ∃ n, walk (expand_paths_to_dict P) (querySegments Q) = some n ∧
          l = "." :: ".." :: n.keys ∧ n.keys.Nodup) ∧
    readdir (expand_paths_to_dict ["a"]) "/a" = .ok [".", ".."] ∧
    (∀ files : Dict, readdir files "/" = .ok ("." :: ".." :: files.keys)) ∧
    readdir (expand_paths_to_dict []) "/" = .ok [".", ".."] := by
  refine ⟨?_, rfl, fun files => rfl, rfl⟩
  intro P Q l h
  cases hw : walk (expand_paths_to_dict P) (querySegments Q) with
  | none => rw [readdir_of_walk_none hw] at h; exact absurd h (by simp)
  | some n =>
    rw [readdir_of_walk_some hw] at h
    injection h with h
    exact ⟨n, rfl, h.symm, allNodup_build P (querySegments Q) n hw⟩

/-- Claim C4, witness: the listing theorem applied to `build(['a/b'])` at
    the path `/a`. -/
theorem readdir_children_spec_witness :
    ∃ n, walk (expand_paths_to_dict ["a/b"]) (querySegments "/a") = some n ∧
      [".", "..", "b"] = "." :: ".." :: n.keys ∧ n.keys.Nodup :=
  readdir_children_spec.1 ["a/b"] "/a" [".", "..", "b"] rfl

/-- Claim C5: each of the nine mutating operations fails with the fixed
    `ENOSYS` signal for every input and returns the tree unchanged, so
    `getattr` and `readdir` (with the same wall-clock value) answer
    identically before and after any mutating call. -/
theorem mutating_ops_rejected :
    ∀ (files : Dict) (path old new : String)
      (mode flags length offset fh : Nat) (data : List Nat)
      (q : String) (now : Nat),
      mkdir files path mode = (.error .ENOSYS, files) ∧
      rmdir files path = (.error .ENOSYS, files) ∧
      create files path mode = (.error .ENOSYS, files) ∧
      openFile files path flags = (.error .ENOSYS, files) ∧
      readFile files path length offset fh = (.error .ENOSYS, files) ∧
      writeFile files path data offset fh = (.error .ENOSYS, files) ∧
      truncate files path length = (.error .ENOSYS, files) ∧
      unlink files path = (.error .ENOSYS, files) ∧
      rename files old new = (.error .ENOSYS, files) ∧
      getattr (mkdir files path mode).2 q now = getattr files q now ∧
      getattr (rename files old new).2 q now = getattr files q now ∧
      readdir (unlink files path).2 q = readdir files q ∧
      readdir (rmdir files path).2 q = readdir files q :=
  fun _ _ _ _ _ _ _ _ _ _ _ _ =>
    ⟨rfl, rfl, rfl, rfl, rfl, rfl, rfl, rfl, rfl, rfl, rfl, rfl, rfl⟩

/-- Claim C5, witness: the rejection theorem applied to the empty tree
    and the path `/x`. -/
theorem mutating_ops_rejected_witness :
    mkdir (Dict.mk []) "/x" 0 = (.error .ENOSYS, Dict.mk []) :=
  (mutating_ops_rejected (Dict.mk []) "/x" "/y" "/z" 0 0 0 0 0 [] "/q" 0).1

/-- Claim C9: a trailing slash creates an empty-named node:
    `build(['a/'])` is `{'a': {'': {}}}`, so `getattr('/a')` reports link
    count 2 (directory) and `listChildren('/a')` is `['.', '..', '']`,
    while no query path ever contains an empty segment after
    normalization, so the empty-named child is unreachable by queries. -/
theorem trailing_slash_empty_node :
    expand_paths_to_dict ["a/"] = Dict.mk [("a", Dict.mk [("", Dict.mk [])])] ∧
    (∀ now : Nat, getattr (expand_paths_to_dict ["a/"]) "/a" now
        = .ok ⟨S_IFDIR ||| 0o755, 2, 0, now, now, now⟩) ∧
    readdir (expand_paths_to_dict ["a/"]) "/a" = .ok [".", "..", ""] ∧
    (∀ q : String, "" ∉ querySegments q) :=
  ⟨rfl, fun _ => rfl, rfl, fun q h => querySegments_no_empty q "" h rfl⟩

/-- Claim C7: tree construction is idempotent — `build(P ++ P)` is the
    very same tree as `build(P)` (hence identical `listChildren` answers
    at every path), and inserting a single path twice has no duplicate
    effect. -/
theorem build_idempotent :
    (∀ P : List String,
        expand_paths_to_dict (P ++ P) = expand_paths_to_dict P) ∧
    (∀ (P : List String) (Q : String),
        readdir (expand_paths_to_dict (P ++ P)) Q
          = readdir (expand_paths_to_dict P) Q) ∧
    (∀ (d : Dict) (ps : List String),
        insertParts (insertParts d ps) ps = insertParts d ps) := by
  have hbuild : ∀ P : List String,
      expand_paths_to_dict (P ++ P) = expand_paths_to_dict P := by
    intro P
    rw [expand_paths_to_dict, List.foldl_append]
    exact foldl_insert_id (build_containsB P)
  refine ⟨hbuild, fun P Q => by rw [hbuild], fun d ps => ?_⟩
  exact insertParts_of_containsB (containsB_insertParts_self ps d)

/-- Claim C7, witness: idempotence applied to `P = ['a']`. -/
theorem build_idempotent_witness :
    expand_paths_to_dict (["a"] ++ ["a"]) = expand_paths_to_dict ["a"] :=
  build_idempotent.1 ["a"]

/-- Claim C8: tree construction is order-insensitive — `build(P)` and
    `build(reverse(P))` have the same reachable chains, and at every
    common chain the two resolved nodes have the same set of child
    names. -/
theorem build_order_insensitive :
    ∀ (P : List String) (c : List String),
      ((walk (expand_paths_to_dict P.reverse) c).isSome ↔
        (walk (expand_paths_to_dict P) c).isSome) ∧
      (∀ (n1 n2 : Dict) (k : String),
          walk (expand_paths_to_dict P.reverse) c = some n1 →
          walk (expand_paths_to_dict P) c = some n2 →
          (k ∈ n1.keys ↔ k ∈ n2.keys)) := by
  have hiff : ∀ (P : List String) (c : List String),
      (walk (expand_paths_to_dict P.reverse) c).isSome ↔
        (walk (expand_paths_to_dict P) c).isSome := by
    intro P c
    rw [walk_build, walk_build]
    simp [List.mem_reverse]
  intro P c
  refine ⟨hiff P c, fun n1 n2 k h1 h2 => ?_⟩
  have hkey : ∀ (d n : Dict), walk d c = some n →
      (k ∈ n.keys ↔ (walk d (c ++ [k])).isSome) := by
    intro d n h
    rw [walk_append, h]
    have hsing : walk n [k] = lookupEntry n.entries k := by
      cases hl : lookupEntry n.entries k with
      | none => simp [walk, hl]
      | some ch => simp [walk, hl]
    simp only [Option.some_bind, hsing]
    cases hl : lookupEntry n.entries k with
    | none =>
      simp only [Option.isSome_none]
      rw [lookupEntry_eq_none_iff] at hl
      simp [Dict.keys, hl]
    | some ch =>
      simp only [Option.isSome_some]
      have : ¬ lookupEntry n.entries k = none := by simp [hl]
      rw [lookupEntry_eq_none_iff] at this
      simp only [Dict.keys]
      tauto
  rw [hkey _ _ h1, hkey _ _ h2]
  exact hiff P (c ++ [k])

/-- Claim C8, witness: order-insensitivity applied to `P = ['a/b', 'c']`
    at the chain `['a']`. -/
theorem build_order_insensitive_witness :
    ("b" ∈ (Dict.mk [("b", Dict.mk [])]).keys ↔
      "b" ∈ (Dict.mk [("b", Dict.mk [])]).keys) :=
  (build_order_insensitive ["a/b", "c"] ["a"]).2
    (Dict.mk [("b", Dict.mk [])]) (Dict.mk [("b", Dict.mk [])]) "b" rfl rfl

/-- Claim C9, witness: no query path contains an empty segment,
    instantiated at `/a/b`. -/
theorem trailing_slash_empty_node_witness :
    "" ∉ querySegments "/a/b" :=
  trailing_slash_empty_node.2.2.2 "/a/b"

/-- Claim C10: query paths are slash-normalized — two path strings with
    the same nonempty segments (i.e. differing only by leading, trailing
    or doubled slashes) get identical `getattr` and `readdir` answers on
    every tree, and `''`, `/`, `//` all resolve to the root. -/
theorem query_slash_normalization :
    (∀ (files : Dict) (s1 s2 : String) (now : Nat),
        querySegments s1 = querySegments s2 →
        getattr files s1 now = getattr files s2 now ∧
        readdir files s1 = readdir files s2) ∧
    (∀ files : Dict,
        querySegments "" = [] ∧ querySegments "/" = [] ∧ querySegments "//" = [] ∧
        readdir files "" = .ok ("." :: ".." :: files.keys) ∧
        readdir files "/" = .ok ("." :: ".." :: files.keys) ∧
        readdir files "//" = .ok ("." :: ".." :: files.keys) ∧
        (∀ now : Nat, getattr files "" now = getattr files "/" now ∧
          getattr files "/" now = getattr files "//" now)) := by
  constructor
  · intro files s1 s2 now h
    constructor
    · rw [getattr, getattr, h]
    · rw [readdir, readdir, h]
  · intro files
    exact ⟨rfl, rfl, rfl, rfl, rfl, rfl, fun _ => ⟨rfl, rfl⟩⟩

/-- Claim C10, witness: the normalization theorem applied to the tree
    `build(['a'])` and the pair of paths `/a` and `//a/`. -/
theorem query_slash_normalization_witness :
    getattr (expand_paths_to_dict ["a"]) "/a" 3
        = getattr (expand_paths_to_dict ["a"]) "//a/" 3 ∧
    readdir (expand_paths_to_dict ["a"]) "/a"
        = readdir (expand_paths_to_dict ["a"]) "//a/" :=
  query_slash_normalization.1 (expand_paths_to_dict ["a"]) "/a" "//a/" 3 (by decide)

end FakeFuse
